import Mathlib

/-!
Verification development for the VCIDE syntax highlighting engine
(`Page.syntaxHighlight` in `VCIDE/IDE/page.py`).

The engine works on a Tk text buffer.  We embed the buffer as a list of
lines, each line a list of characters (newlines are the separators and are
not stored).  A position is a pair (row, column), rows 0-based here.

Every search loop in the source either resumes inside the current line
(at a match end, one past a closing quote, or one past a skipped hash) or
jumps to the current line's end, after which the next hit necessarily lies
on a later line; no token, string span or comment span contains a newline.
Hence each buffer-wide scan is the union over lines of an independent
per-line scan starting at column 0, and we embed each pass per line.
Recursions carry explicit fuel (`line.length + 1`), which strictly bounds
the number of loop iterations since every iteration advances the scan
position by at least one column.
-/

namespace VCIDE

/-- The `Page.illegals` list from the source: characters that cannot occur
inside an identifier, used by the token boundary check. -/
def illegals : List Char :=
  ['\x60', '¬', '¦', '!', '"', '%', '^', '&', '*', '(', ')', '-', ' ',
   '+', '=', '[', ']', '\x7b', '\x7d', '\'', '@', ':', ';', '#', '~',
   '/', '?', ',', '<', '.', '>', '\\', '|']

/-- Does the pattern `tok` occur at the head of `s`?  This is the
elementary comparison underlying `t.search(tok, ...)` for a literal
pattern. -/
def matchHere (tok s : List Char) : Bool :=
  s.take tok.length == tok

/-- Index of the first occurrence of `tok` in `s`, if any: the elementary
forward search performed by `t.search`. -/
def findOcc (tok : List Char) : List Char → Option Nat
  | [] => if matchHere tok [] then some 0 else none
  | c :: rest =>
      if matchHere tok (c :: rest) then some 0
      else (findOcc tok rest).map (· + 1)

/-- First occurrence of `tok` in `line` at column `i` or later:
`t.search(tok, start, lineend)` restricted to one line. -/
def findFrom (tok line : List Char) (i : Nat) : Option Nat :=
  (findOcc tok (line.drop i)).map (· + i)

/-- Columns visited by the repeated keyword/builtin search loop on one
line, starting at column `i`: each iteration finds the next occurrence
and resumes at its end (mark `b` is set to `index + length` chars). -/
def scanFrom (tok line : List Char) : Nat → Nat → List Nat
  | 0, _ => []
  | fuel + 1, i =>
      match findFrom tok line i with
      | none => []
      | some j => j :: scanFrom tok line fuel (j + tok.length)

/-- All columns visited by the token search loop on a line.  For a
non-empty token each iteration advances the start column by at least one,
so `line.length + 1` units of fuel are never exhausted.  (For the empty
token the source loop would never terminate; it yields no visits here.) -/
def visitedCols (tok line : List Char) : List Nat :=
  scanFrom tok line (line.length + 1) 0

/-- The boundary condition of the source, verbatim: a match of length
`len` at column `col` of `line` is tagged iff the line is exactly the
token, or it starts the line and the next character is illegal, or it
ends the line and the previous character is illegal, or it is interior
with illegal characters on both sides.  `getD` stands in for Python
indexing; every lookup the source actually evaluates is in range (see
the safety theorem below), so the default is never consulted there. -/
def boundaryOk (line : List Char) (col len : Nat) : Bool :=
  (col == 0 && line.length == col + len) ||
  (col == 0 && illegals.contains (line.getD (col + len) '\x00')) ||
  (line.length == col + len && illegals.contains (line.getD (col - 1) '\x00')) ||
  ((col != 0 && decide (col + len < line.length)) &&
   (illegals.contains (line.getD (col - 1) '\x00') &&
    illegals.contains (line.getD (col + len) '\x00')))

/-- Spans (start, end), end exclusive, tagged for token `tok` on a line:
the visited occurrences that pass the boundary check. -/
def taggedSpans (tok line : List Char) : List (Nat × Nat) :=
  ((visitedCols tok line).filter (fun j => boundaryOk line j tok.length)).map
    (fun j => (j, j + tok.length))

/-- The four style tags configured on the text widget. -/
inductive TagKind where
  | kw | bi | str | comment
deriving DecidableEq, Repr

/-- A tagged span: one row, a half-open column range, and a tag kind.
No tag produced by the engine ever crosses a line boundary. -/
structure Tag where
  row : Nat
  startCol : Nat
  endCol : Nat
  kind : TagKind
deriving DecidableEq, Repr

/-- Turn a list of per-line spans into tags on a given row. -/
def spanTags (row : Nat) (k : TagKind) (spans : List (Nat × Nat)) : List Tag :=
  spans.map (fun p => ⟨row, p.1, p.2, k⟩)

/-- One token's pass over the whole buffer (rows numbered from `row`). -/
def tokenPass (tok : List Char) (k : TagKind) : Nat → List (List Char) → List Tag
  | _, [] => []
  | row, line :: rest =>
      spanTags row k (taggedSpans tok line) ++ tokenPass tok k (row + 1) rest

/-- The keyword (resp. builtin) highlighting section: an outer loop over
the catalog tokens, an inner search loop over the buffer. -/
def catalogPass (toks : List (List Char)) (k : TagKind) (lines : List (List Char)) : List Tag :=
  toks.foldr (fun tok acc => tokenPass tok k 0 lines ++ acc) []

/-- String spans produced on one line for quote character `q`, scanning
from column `i`: find the next `q`; look for a second `q` on the rest of
the same line; if none, tag to end of line (the scan then resumes at the
line end, leaving this line); otherwise tag through the closing quote
inclusive and resume one past it. -/
def quoteScanFrom (q : Char) (line : List Char) : Nat → Nat → List (Nat × Nat)
  | 0, _ => []
  | fuel + 1, i =>
      match findFrom [q] line i with
      | none => []
      | some a =>
          match findFrom [q] line (a + 1) with
          | none => [(a, line.length)]
          | some b => (a, b + 1) :: quoteScanFrom q line fuel (b + 1)

/-- All string spans on a line for quote character `q`. -/
def quoteSpans (q : Char) (line : List Char) : List (Nat × Nat) :=
  quoteScanFrom q line (line.length + 1) 0

/-- The string highlighting section for one quote character over the
whole buffer. -/
def quotePass (q : Char) : Nat → List (List Char) → List Tag
  | _, [] => []
  | row, line :: rest =>
      spanTags row TagKind.str (quoteSpans q line) ++ quotePass q (row + 1) rest

/-- Number of occurrences of `c` strictly before column `j` of a line:
`t.get(index + " linestart", index).count(c)`. -/
def countBefore (c : Char) (line : List Char) (j : Nat) : Nat :=
  (line.take j).count c

/-- The quote-parity test guarding a comment introducer at column `j`:
both the double-quote and the single-quote count before it are even. -/
def evenQuotesAt (line : List Char) (j : Nat) : Bool :=
  countBefore '"' line j % 2 == 0 && countBefore '\'' line j % 2 == 0

/-- Comment spans on one line from column `i`: find the next `#`; if the
double-quote and single-quote counts before it are both even, the span
runs to the line end and the scan resumes at the line end (leaving this
line); otherwise skip one past the hash. -/
def commentScanFrom (line : List Char) : Nat → Nat → List (Nat × Nat)
  | 0, _ => []
  | fuel + 1, i =>
      match findFrom ['#'] line i with
      | none => []
      | some j =>
          if evenQuotesAt line j then
            [(j, line.length)]
          else
            commentScanFrom line fuel (j + 1)

/-- All comment spans on a line (by construction none or one). -/
def commentSpans (line : List Char) : List (Nat × Nat) :=
  commentScanFrom line (line.length + 1) 0

/-- `t.tag_remove("str", a, b)` on a single tag: the character range
`[lo, hi)` is removed from the tag's span, leaving at most a left and a
right remnant. -/
def cutSpan (lo hi : Nat) (t : Tag) : List Tag :=
  (if t.startCol < lo then [{ t with endCol := min t.endCol lo }] else []) ++
  (if hi < t.endCol then [{ t with startCol := max t.startCol hi }] else [])

/-- Remove the String tag from range `[lo, hi)` of `row` across a tag
list; tags of other kinds or rows pass through untouched. -/
def removeStrIn (row lo hi : Nat) (tags : List Tag) : List Tag :=
  tags.flatMap (fun t =>
    if t.kind == TagKind.str && t.row == row then cutSpan lo hi t else [t])

/-- Apply one line's comment spans to the accumulated tags: for each span
first remove String tags inside it, then add the Comment tag. -/
def applyComments (row : Nat) (spans : List (Nat × Nat)) (tags : List Tag) : List Tag :=
  spans.foldl
    (fun acc p => removeStrIn row p.1 p.2 acc ++ [⟨row, p.1, p.2, TagKind.comment⟩]) tags

/-- The comment highlighting section over the whole buffer. -/
def commentApplyAll : Nat → List (List Char) → List Tag → List Tag
  | _, [], tags => tags
  | row, line :: rest, tags =>
      commentApplyAll (row + 1) rest (applyComments row (commentSpans line) tags)

/-- A tag lies within buffer bounds: its row exists and its non-empty
column range stays inside its line. -/
def withinBounds (lines : List (List Char)) (t : Tag) : Prop :=
  t.row < lines.length ∧ t.startCol < t.endCol ∧
    t.endCol ≤ (lines.getD t.row []).length

/-- The token catalog (`resources/syntax.json`): keyword and builtin
identifier strings, loaded once at startup. -/
structure Catalog where
  keywords : List (List Char)
  builtins : List (List Char)
deriving DecidableEq, Repr

/-- Tags laid down before the comment section, in the source's order:
keywords, builtins, double-quoted strings, single-quoted strings. -/
def baseTags (cat : Catalog) (lines : List (List Char)) : List Tag :=
  catalogPass cat.keywords TagKind.kw lines ++
  catalogPass cat.builtins TagKind.bi lines ++
  quotePass '"' 0 lines ++
  quotePass '\'' 0 lines

/-- A complete highlight pass over a buffer: base passes then the comment
section. -/
def highlight (cat : Catalog) (lines : List (List Char)) : List Tag :=
  commentApplyAll 0 lines (baseTags cat lines)

/-- The four `tag_remove(kind, "1.0", "end")` calls that begin every
pass: all previously applied tags of the four kinds are dropped. -/
def clearTags (tags : List Tag) : List Tag :=
  ((((tags.filter (fun t => !(t.kind == TagKind.kw))).filter
      (fun t => !(t.kind == TagKind.bi))).filter
      (fun t => !(t.kind == TagKind.str))).filter
      (fun t => !(t.kind == TagKind.comment)))

/-- One run of the tagging body of `syntaxHighlight`, with the tags left
by previous passes made explicit: clear, then recompute. -/
def runPass (cat : Catalog) (lines : List (List Char)) (oldTags : List Tag) : List Tag :=
  clearTags oldTags ++ highlight cat lines

/-- Is the character at column `i` (if any) in the illegal set? -/
def illegalAt (line : List Char) (i : Nat) : Bool :=
  match line.get? i with
  | some c => illegals.contains c
  | none => false

/-- The boundary rule as the specification words it (§4.1): a match of
`tok` at column `j` is a delimited whole-token occurrence iff the line
equals exactly the matched text, or the match starts at column 0 and the
character immediately after it is illegal, or the match ends at line
length and the character immediately before it is illegal, or the match
is interior and both neighboring characters are illegal. -/
def specDelimited (tok line : List Char) (j : Nat) : Bool :=
  (line == tok) ||
  (j == 0 && illegalAt line (j + tok.length)) ||
  (j != 0 && j + tok.length == line.length && illegalAt line (j - 1)) ||
  (j != 0 && j + tok.length != line.length &&
   illegalAt line (j - 1) && illegalAt line (j + tok.length))

/-- Whitespace in the sense of Python's `str.lstrip()` (ASCII range). -/
def pySpace (c : Char) : Bool :=
  c == ' ' || c == '\t' || c == '\n' || c == '\r' || c == '\x0b' || c == '\x0c'

/-- Length of a line after stripping leading whitespace (`lstrip`). -/
def lstripLen (l : List Char) : Nat := (l.dropWhile pySpace).length

/-- The text widget's state: buffer lines and the insertion cursor as a
(row, column) pair, rows 0-based. -/
structure EditorState where
  lines : List (List Char)
  cursor : Nat × Nat
deriving DecidableEq, Repr

/-- `t.insert("insert", cs)`: splice characters into the cursor's line at
the cursor column; the cursor moves past the inserted text. -/
def insertChars (st : EditorState) (cs : List Char) : EditorState :=
  let row := st.cursor.1
  let col := st.cursor.2
  let line := st.lines.getD row []
  { lines := st.lines.set row (line.take col ++ cs ++ line.drop col),
    cursor := (row, col + cs.length) }

/-- The auto-indent prologue run on a `Return` key release.  The source
reads the line holding `insert - 1c` (at column 0 — the state right
after Return inserted the newline — that is the previous line, and Tk's
clamping at row 0 matches truncated subtraction), inserts
`4 * (L / 4)` spaces for a leading-whitespace run of length `L`, then
four more if the previous line's last character is a colon. -/
def applyAutoIndent (st : EditorState) : EditorState :=
  let row := st.cursor.1
  let col := st.cursor.2
  let prevln := if col == 0 then st.lines.getD (row - 1) [] else st.lines.getD row []
  let st1 := insertChars st (List.replicate (4 * ((prevln.length - lstripLen prevln) / 4)) ' ')
  if (st1.lines.getD (st1.cursor.1 - 1) []).getLast? == some ':' then
    insertChars st1 (List.replicate 4 ' ')
  else st1

/-- The keysym that triggers auto-indent. -/
def returnKey : List Char := ['R', 'e', 't', 'u', 'r', 'n']

/-- The whole `syntaxHighlight(event)` method: if the triggering event's
keysym is `Return`, auto-indent first; then clear and recompute all tags
from the (possibly updated) buffer. -/
def highlightEvent (cat : Catalog) (event : Option (List Char)) (st : EditorState)
    (oldTags : List Tag) : EditorState × List Tag :=
  let st1 :=
    match event with
    | some ks => if ks == returnKey then applyAutoIndent st else st
    | none => st
  (st1, runPass cat st1.lines oldTags)

/-! ### Lemmas about the search primitives -/

theorem matchHere_nil {tok : List Char} (hne : tok ≠ []) : matchHere tok [] = false := by
  cases tok with
  | nil => exact absurd rfl hne
  | cons c t => simp [matchHere]

theorem matchHere_length_le {tok s : List Char} (h : matchHere tok s = true) :
    tok.length ≤ s.length := by
  unfold matchHere at h
  have h' : s.take tok.length = tok := by simpa using h
  have := congrArg List.length h'
  simp [List.length_take] at this
  omega

theorem findOcc_eq_some {tok : List Char} :
    ∀ {s : List Char} {k : Nat}, findOcc tok s = some k →
      matchHere tok (s.drop k) = true ∧ k ≤ s.length := by
  intro s
  induction s with
  | nil =>
      intro k h
      unfold findOcc at h
      split at h
      · next hm =>
          cases h
          exact ⟨by simpa using hm, Nat.le_refl _⟩
      · exact absurd h (by simp)
  | cons c rest ih =>
      intro k h
      unfold findOcc at h
      split at h
      · next hm =>
          cases h
          exact ⟨by simpa using hm, by simp⟩
      · next hm =>
          rcases Option.map_eq_some'.mp h with ⟨k', hk', rfl⟩
          rcases ih hk' with ⟨h1, h2⟩
          refine ⟨by simpa using h1, by simpa using Nat.succ_le_succ h2⟩

theorem findOcc_min {tok : List Char} :
    ∀ {s : List Char} {k : Nat}, findOcc tok s = some k →
      ∀ m, m < k → matchHere tok (s.drop m) = false := by
  intro s
  induction s with
  | nil =>
      intro k h m hm
      unfold findOcc at h
      split at h
      · cases h; omega
      · exact absurd h (by simp)
  | cons c rest ih =>
      intro k h m hm
      unfold findOcc at h
      split at h
      · cases h; omega
      · next hmm =>
          rcases Option.map_eq_some'.mp h with ⟨k', hk', rfl⟩
          cases m with
          | zero =>
              simpa using Bool.not_eq_true _ ▸ (by simpa using hmm)
          | succ m' =>
              have := ih hk' m' (by omega)
              simpa using this

theorem findOcc_eq_none {tok : List Char} (hne : tok ≠ []) :
    ∀ {s : List Char}, findOcc tok s = none →
      ∀ m, matchHere tok (s.drop m) = false := by
  intro s
  induction s with
  | nil =>
      intro _ m
      simpa using matchHere_nil hne
  | cons c rest ih =>
      intro h m
      unfold findOcc at h
      split at h
      · exact absurd h (by simp)
      · next hmm =>
          have hrest : findOcc tok rest = none := by
            cases hh : findOcc tok rest with
            | none => rfl
            | some k => rw [hh] at h; simp at h
          cases m with
          | zero =>
              simp only [List.drop_zero]
              cases hb : matchHere tok (c :: rest) with
              | false => rfl
              | true => exact absurd hb hmm
          | succ m' =>
              simpa using ih hrest m'

theorem findFrom_eq_some {tok line : List Char} {i j : Nat}
    (h : findFrom tok line i = some j) :
    i ≤ j ∧ matchHere tok (line.drop j) = true := by
  unfold findFrom at h
  rcases Option.map_eq_some'.mp h with ⟨k, hk, rfl⟩
  rcases findOcc_eq_some hk with ⟨h1, _⟩
  constructor
  · omega
  · rw [List.drop_drop] at h1
    rwa [Nat.add_comm] at h1

theorem matchHere_bound {tok line : List Char} {j : Nat} (hne : tok ≠ [])
    (hm : matchHere tok (line.drop j) = true) :
    j + tok.length ≤ line.length := by
  have h1 := matchHere_length_le hm
  have h2 : 0 < tok.length := List.length_pos.mpr hne
  simp [List.length_drop] at h1
  omega

theorem findFrom_min {tok line : List Char} {i j : Nat}
    (h : findFrom tok line i = some j) :
    ∀ m, i ≤ m → m < j → matchHere tok (line.drop m) = false := by
  unfold findFrom at h
  rcases Option.map_eq_some'.mp h with ⟨k, hk, rfl⟩
  intro m him hmk
  have := findOcc_min hk (m - i) (by omega)
  rw [List.drop_drop] at this
  have hmi : i + (m - i) = m := by omega
  rwa [hmi] at this

theorem findFrom_eq_none {tok line : List Char} {i : Nat} (hne : tok ≠ [])
    (h : findFrom tok line i = none) :
    ∀ m, i ≤ m → matchHere tok (line.drop m) = false := by
  unfold findFrom at h
  have hocc : findOcc tok (line.drop i) = none := by
    cases hh : findOcc tok (line.drop i) with
    | none => rfl
    | some k => rw [hh] at h; simp at h
  intro m him
  have := findOcc_eq_none hne hocc (m - i)
  rw [List.drop_drop] at this
  have hmi : i + (m - i) = m := by omega
  rwa [hmi] at this

theorem findFrom_complete {tok line : List Char} {i j : Nat} (hne : tok ≠ [])
    (hij : i ≤ j) (hm : matchHere tok (line.drop j) = true) :
    ∃ j1, findFrom tok line i = some j1 ∧ j1 ≤ j := by
  cases hh : findFrom tok line i with
  | none => exact absurd hm (by simp [findFrom_eq_none hne hh j hij])
  | some j1 =>
      refine ⟨j1, rfl, ?_⟩
      by_contra hlt
      exact absurd hm (by simp [findFrom_min hh j hij (by omega)])

theorem mem_scanFrom {tok line : List Char} (hne : tok ≠ []) :
    ∀ {fuel i j : Nat}, j ∈ scanFrom tok line fuel i →
      i ≤ j ∧ matchHere tok (line.drop j) = true ∧ j + tok.length ≤ line.length := by
  intro fuel
  induction fuel with
  | zero => intro i j h; simp [scanFrom] at h
  | succ f ih =>
      intro i j h
      unfold scanFrom at h
      cases hh : findFrom tok line i with
      | none => rw [hh] at h; simp at h
      | some a =>
          rw [hh] at h
          rcases findFrom_eq_some hh with ⟨hia, hma⟩
          have hab := matchHere_bound hne hma
          rcases List.mem_cons.mp h with rfl | hrec
          · exact ⟨hia, hma, hab⟩
          · rcases ih hrec with ⟨h1, h2, h3⟩
            exact ⟨by omega, h2, h3⟩

theorem mem_visitedCols {tok line : List Char} {j : Nat} (hne : tok ≠ [])
    (h : j ∈ visitedCols tok line) :
    matchHere tok (line.drop j) = true ∧ j + tok.length ≤ line.length :=
  (mem_scanFrom hne h).2

/-! ### The boundary check agrees with the specification's rule -/

theorem nul_not_illegal : illegals.contains '\x00' = false := by decide

theorem illegalAt_lt {line : List Char} {i : Nat} (h : i < line.length) :
    illegalAt line i = illegals.contains (line.getD i '\x00') := by
  unfold illegalAt
  rw [List.get?_eq_get h, List.getD_eq_get?, List.get?_eq_get h]
  rfl

theorem illegalAt_ge {line : List Char} {i : Nat} (h : line.length ≤ i) :
    illegalAt line i = false := by
  unfold illegalAt
  rw [List.get?_eq_none.mpr h]

theorem getD_ge {line : List Char} {i : Nat} (h : line.length ≤ i) :
    line.getD i '\x00' = '\x00' :=
  List.getD_eq_default line _ h

theorem line_eq_tok_iff {tok line : List Char} {j : Nat} (hne : tok ≠ [])
    (hm : matchHere tok (line.drop j) = true) :
    line = tok ↔ (j = 0 ∧ line.length = j + tok.length) := by
  have hlen := matchHere_bound hne hm
  have hpos : 0 < tok.length := List.length_pos.mpr hne
  constructor
  · intro he
    have : line.length = tok.length := by rw [he]
    constructor <;> omega
  · rintro ⟨rfl, hL⟩
    simp only [List.drop_zero] at hm
    unfold matchHere at hm
    have h' : line.take tok.length = tok := by simpa using hm
    have htake : line.take tok.length = line := List.take_of_length_le (by omega)
    rw [← htake, h']

theorem boundaryOk_eq_spec {tok line : List Char} {j : Nat} (hne : tok ≠ [])
    (hm : matchHere tok (line.drop j) = true) :
    boundaryOk line j tok.length = specDelimited tok line j := by
  have hlen := matchHere_bound hne hm
  have hpos : 0 < tok.length := List.length_pos.mpr hne
  have hline := line_eq_tok_iff hne hm
  have h2 : illegalAt line (j + tok.length) = true ↔
      illegals.contains (line.getD (j + tok.length) '\x00') = true := by
    rcases Nat.lt_or_ge (j + tok.length) line.length with hlt | hge
    · rw [illegalAt_lt hlt]
    · rw [illegalAt_ge hge, getD_ge hge, nul_not_illegal]
  have h3 : illegalAt line (j - 1) = true ↔
      illegals.contains (line.getD (j - 1) '\x00') = true := by
    rw [illegalAt_lt (by omega)]
  rw [Bool.eq_iff_iff]
  simp only [boundaryOk, specDelimited, Bool.or_eq_true, Bool.and_eq_true, beq_iff_eq,
    bne_iff_ne, decide_eq_true_eq, ne_eq]
  constructor
  · rintro (((⟨hj, hL⟩ | ⟨hj, hc⟩) | ⟨hL, hc⟩) | ⟨⟨hj, hlt⟩, hc1, hc2⟩)
    · exact Or.inl (Or.inl (Or.inl (hline.mpr ⟨hj, hL⟩)))
    · exact Or.inl (Or.inl (Or.inr ⟨hj, h2.mpr hc⟩))
    · by_cases hj0 : j = 0
      · exact Or.inl (Or.inl (Or.inl (hline.mpr ⟨hj0, hL⟩)))
      · exact Or.inl (Or.inr ⟨⟨hj0, by omega⟩, h3.mpr hc⟩)
    · exact Or.inr ⟨⟨⟨hj, by omega⟩, h3.mpr hc1⟩, h2.mpr hc2⟩
  · rintro (((he | ⟨hj, hc⟩) | ⟨⟨hj, hL⟩, hc⟩) | ⟨⟨⟨hj, hL⟩, hc1⟩, hc2⟩)
    · rcases hline.mp he with ⟨hj, hL⟩
      exact Or.inl (Or.inl (Or.inl ⟨hj, hL⟩))
    · exact Or.inl (Or.inl (Or.inr ⟨hj, h2.mp hc⟩))
    · exact Or.inl (Or.inr ⟨by omega, h3.mp hc⟩)
    · exact Or.inr ⟨⟨hj, by omega⟩, h3.mp hc1, h2.mp hc2⟩

theorem mem_taggedSpans_iff {tok line : List Char} {j : Nat} :
    (j, j + tok.length) ∈ taggedSpans tok line ↔
      j ∈ visitedCols tok line ∧ boundaryOk line j tok.length = true := by
  unfold taggedSpans
  rw [List.mem_map]
  constructor
  · rintro ⟨a, ha, heq⟩
    have haj : a = j := by
      have := congrArg Prod.fst heq
      simpa using this
    subst haj
    exact List.mem_filter.mp ha
  · intro h
    exact ⟨j, List.mem_filter.mpr ⟨h.1, h.2⟩, rfl⟩

/-! ### Claim theorems: token boundary -/

/-- C1: a catalog-token occurrence visited by the scan (which resumes at
the previous match's end) is tagged iff it is a delimited whole-token
occurrence in the sense of the specification's four-case rule; in
particular the line `for` is tagged for token `for`, the line `before`
is not, and in `x=for;` the `for` is tagged. -/
theorem c1_token_boundary :
    (∀ tok line : List Char, ∀ j : Nat, tok ≠ [] → j ∈ visitedCols tok line →
      ((j, j + tok.length) ∈ taggedSpans tok line ↔ specDelimited tok line j = true)) ∧
    taggedSpans "for".toList "for".toList = [(0, 3)] ∧
    taggedSpans "for".toList "before".toList = [] ∧
    taggedSpans "for".toList "x=for;".toList = [(2, 5)] := by
  refine ⟨?_, by decide, by decide, by decide⟩
  intro tok line j hne hv
  rw [mem_taggedSpans_iff]
  have hmm := (mem_visitedCols hne hv).1
  rw [boundaryOk_eq_spec hne hmm]
  exact ⟨fun h => h.2, fun h => ⟨hv, h⟩⟩

/-- Witness for C1 at token `for`, line `x=for;`, column 2. -/
theorem c1_token_boundary_witness :
    (2, 2 + "for".toList.length) ∈ taggedSpans "for".toList "x=for;".toList ↔
      specDelimited "for".toList "x=for;".toList 2 = true :=
  c1_token_boundary.1 "for".toList "x=for;".toList 2 (by decide) (by decide)

/-- C9: under the precondition that a token is non-empty (and matches at
the visited column, hence lies within the line), every neighbor-character
lookup the boundary check can evaluate is in range: the after-lookup of
case (b) only runs with `col + len < length`, the before-lookup of case
(c) only runs with `1 ≤ col`, and case (d)'s guard bounds both its
lookups. -/
theorem c9_lookup_safety :
    ∀ tok line : List Char, ∀ j : Nat, tok ≠ [] → matchHere tok (line.drop j) = true →
      (¬(j = 0 ∧ line.length = j + tok.length) → j = 0 →
        j + tok.length < line.length) ∧
      (¬(j = 0 ∧ line.length = j + tok.length) → line.length = j + tok.length →
        1 ≤ j ∧ j - 1 < line.length) ∧
      (j ≠ 0 → j + tok.length < line.length →
        j - 1 < line.length ∧ j + tok.length < line.length) := by
  intro tok line j hne hm
  have hlen := matchHere_bound hne hm
  have hpos : 0 < tok.length := List.length_pos.mpr hne
  exact ⟨fun h1 h2 => by omega, fun h1 h2 => ⟨by omega, by omega⟩,
    fun h1 h2 => ⟨by omega, h2⟩⟩

/-- Witness for C9 at token `for`, line `x=for` (match touching the line
end), column 2. -/
theorem c9_lookup_safety_witness :
    1 ≤ 2 ∧ 2 - 1 < "x=for".toList.length :=
  (c9_lookup_safety "for".toList "x=for".toList 2 (by decide) (by decide)).2.1
    (by decide) (by decide)

/-! ### Claim theorems: string spans -/

theorem quoteScanFrom_succ_none {q : Char} {line : List Char} {fuel i : Nat}
    (h : findFrom [q] line i = none) : quoteScanFrom q line (fuel + 1) i = [] := by
  unfold quoteScanFrom
  rw [h]

theorem quoteScanFrom_succ_unterminated {q : Char} {line : List Char} {fuel i a : Nat}
    (h1 : findFrom [q] line i = some a) (h2 : findFrom [q] line (a + 1) = none) :
    quoteScanFrom q line (fuel + 1) i = [(a, line.length)] := by
  unfold quoteScanFrom
  rw [h1]
  show (match findFrom [q] line (a + 1) with
        | none => [(a, line.length)]
        | some b => (a, b + 1) :: quoteScanFrom q line fuel (b + 1)) = [(a, line.length)]
  rw [h2]

theorem quoteScanFrom_succ_closed {q : Char} {line : List Char} {fuel i a b : Nat}
    (h1 : findFrom [q] line i = some a) (h2 : findFrom [q] line (a + 1) = some b) :
    quoteScanFrom q line (fuel + 1) i = (a, b + 1) :: quoteScanFrom q line fuel (b + 1) := by
  conv_lhs => unfold quoteScanFrom
  rw [h1]
  show (match findFrom [q] line (a + 1) with
        | none => [(a, line.length)]
        | some b => (a, b + 1) :: quoteScanFrom q line fuel (b + 1)) =
      (a, b + 1) :: quoteScanFrom q line fuel (b + 1)
  rw [h2]

theorem mem_quoteScanFrom {q : Char} {line : List Char} :
    ∀ {fuel i s e : Nat}, (s, e) ∈ quoteScanFrom q line fuel i →
      i ≤ s ∧ s < e ∧ e ≤ line.length := by
  intro fuel
  induction fuel with
  | zero => intro i s e h; simp [quoteScanFrom] at h
  | succ f ih =>
      intro i s e h
      cases h1 : findFrom [q] line i with
      | none => rw [quoteScanFrom_succ_none h1] at h; simp at h
      | some a =>
          rcases findFrom_eq_some h1 with ⟨hia, hma⟩
          have ha1 : a + 1 ≤ line.length := by
            simpa using matchHere_bound (by simp) hma
          cases h2 : findFrom [q] line (a + 1) with
          | none =>
              rw [quoteScanFrom_succ_unterminated h1 h2] at h
              simp at h
              rcases h with ⟨rfl, rfl⟩
              exact ⟨hia, by omega, Nat.le_refl _⟩
          | some b =>
              rw [quoteScanFrom_succ_closed h1 h2] at h
              rcases List.mem_cons.mp h with heq | hrec
              · rw [Prod.mk.injEq] at heq
                rcases heq with ⟨rfl, rfl⟩
                rcases findFrom_eq_some h2 with ⟨hab, hmb⟩
                have hb1 : b + 1 ≤ line.length := by
                  simpa using matchHere_bound (by simp) hmb
                exact ⟨hia, by omega, hb1⟩
              · rcases ih hrec with ⟨hi', h2', h3'⟩
                rcases findFrom_eq_some h2 with ⟨hab, _⟩
                exact ⟨by omega, h2', h3'⟩

/-- C2: each quote scan step: an opening quote with a closing same-type
quote later on its line produces a String span from the opening through
the closing quote inclusive and resumes just past the closing quote; an
opening quote with no further same-type quote on its line produces a
String span to end-of-line (the scan then leaves the line, so the span
list is complete).  Every span stays inside its line.  Fixtures:
`say "hi" now` tags exactly `"hi"`, and the unterminated `say "hi now`
tags from the quote to end of line. -/
theorem c2_quote_scan :
    (∀ (q : Char) (line : List Char) (fuel i a : Nat),
      findFrom [q] line i = some a →
      ((findFrom [q] line (a + 1) = none →
          quoteScanFrom q line (fuel + 1) i = [(a, line.length)]) ∧
       (∀ b, findFrom [q] line (a + 1) = some b →
          quoteScanFrom q line (fuel + 1) i =
            (a, b + 1) :: quoteScanFrom q line fuel (b + 1)))) ∧
    (∀ (q : Char) (line : List Char) (fuel i s e : Nat),
      (s, e) ∈ quoteScanFrom q line fuel i → s < e ∧ e ≤ line.length) ∧
    highlight ⟨[], []⟩ ["say \"hi\" now".toList] = [⟨0, 4, 8, TagKind.str⟩] ∧
    highlight ⟨[], []⟩ ["say \"hi now".toList] = [⟨0, 4, 11, TagKind.str⟩] := by
  refine ⟨?_, ?_, by decide, by decide⟩
  · intro q line fuel i a h1
    exact ⟨fun h2 => quoteScanFrom_succ_unterminated h1 h2,
      fun b h2 => quoteScanFrom_succ_closed h1 h2⟩
  · intro q line fuel i s e h
    exact (mem_quoteScanFrom h).2

/-- Witness for C2's scan-step clause on the line `say "hi" now`. -/
theorem c2_quote_scan_witness :
    quoteScanFrom '"' "say \"hi\" now".toList (11 + 1) 0 =
      (4, 7 + 1) :: quoteScanFrom '"' "say \"hi\" now".toList 11 (7 + 1) :=
  ((c2_quote_scan.1 '"' "say \"hi\" now".toList 11 0 4 (by decide)).2) 7 (by decide)

/-! ### Claim theorems: frame effects of the comment pass -/

theorem mem_removeStrIn_of_ne {t : Tag} {tags : List Tag} {row lo hi : Nat}
    (ht : t ∈ tags) (hk : t.kind ≠ TagKind.str) : t ∈ removeStrIn row lo hi tags := by
  unfold removeStrIn
  rw [List.mem_flatMap]
  refine ⟨t, ht, ?_⟩
  have hb : (t.kind == TagKind.str) = false := beq_eq_false_iff_ne.mpr hk
  simp [hb]

theorem mem_applyComments_of_ne {t : Tag} {row : Nat} {spans : List (Nat × Nat)}
    {tags : List Tag} (ht : t ∈ tags) (hk : t.kind ≠ TagKind.str) :
    t ∈ applyComments row spans tags := by
  unfold applyComments
  induction spans generalizing tags with
  | nil => simpa using ht
  | cons p rest ih =>
      simp only [List.foldl_cons]
      exact ih (List.mem_append.mpr (Or.inl (mem_removeStrIn_of_ne ht hk)))

theorem mem_commentApplyAll_of_ne {t : Tag} (hk : t.kind ≠ TagKind.str) :
    ∀ {ls : List (List Char)} {row : Nat} {tags : List Tag}, t ∈ tags →
      t ∈ commentApplyAll row ls tags := by
  intro ls
  induction ls with
  | nil => intro row tags ht; simpa [commentApplyAll] using ht
  | cons l rest ih =>
      intro row tags ht
      unfold commentApplyAll
      exact ih (mem_applyComments_of_ne ht hk)

/-- C10: when the comment pass tags a span it removes only String tags
inside it; Keyword and Builtin tags laid down by the base passes survive
into the final tag set alongside the Comment tag (example: keyword `for`
inside the comment of `x=1 # for i`). -/
theorem c10_comment_pass_preserves :
    (∀ (cat : Catalog) (lines : List (List Char)) (t : Tag),
      t ∈ baseTags cat lines → (t.kind = TagKind.kw ∨ t.kind = TagKind.bi) →
      t ∈ highlight cat lines) ∧
    highlight ⟨["for".toList], []⟩ ["x=1 # for i".toList] =
      [⟨0, 6, 9, TagKind.kw⟩, ⟨0, 4, 11, TagKind.comment⟩] := by
  refine ⟨?_, by decide⟩
  intro cat lines t ht hk
  unfold highlight
  refine mem_commentApplyAll_of_ne ?_ ht
  rcases hk with h | h <;> rw [h] <;> decide

/-- Witness for C10: the `for` keyword tag inside the comment span of
`x=1 # for i` is still present after the comment pass. -/
theorem c10_comment_pass_preserves_witness :
    (⟨0, 6, 9, TagKind.kw⟩ : Tag) ∈ highlight ⟨["for".toList], []⟩ ["x=1 # for i".toList] :=
  c10_comment_pass_preserves.1 ⟨["for".toList], []⟩ ["x=1 # for i".toList]
    ⟨0, 6, 9, TagKind.kw⟩ (by decide) (Or.inl rfl)

/-! ### Claim theorems: events, frame and idempotence -/

/-- C7: a pass triggered with no event or by a non-Return key leaves the
buffer text unchanged (it only recomputes tags); on a Return event the
buffer is mutated exactly by the auto-indent insertion. -/
theorem c7_frame :
    (∀ (cat : Catalog) (st : EditorState) (old : List Tag),
      (highlightEvent cat none st old).1 = st) ∧
    (∀ (cat : Catalog) (ks : List Char) (st : EditorState) (old : List Tag),
      ks ≠ returnKey → (highlightEvent cat (some ks) st old).1 = st) ∧
    (∀ (cat : Catalog) (st : EditorState) (old : List Tag),
      (highlightEvent cat (some returnKey) st old).1 = applyAutoIndent st) := by
  refine ⟨fun _ _ _ => rfl, ?_, fun _ _ _ => by simp [highlightEvent]⟩
  intro cat ks st old hne
  simp [highlightEvent, beq_eq_false_iff_ne.mpr hne]

/-- Witness for C7 on the key `a`. -/
theorem c7_frame_witness :
    (highlightEvent ⟨[], []⟩ (some ['a']) ⟨[['x']], (0, 1)⟩ []).1 = ⟨[['x']], (0, 1)⟩ :=
  c7_frame.2.1 ⟨[], []⟩ ['a'] ⟨[['x']], (0, 1)⟩ [] (by decide)

theorem clearTags_eq_nil (tags : List Tag) : clearTags tags = [] := by
  apply List.eq_nil_iff_forall_not_mem.mpr
  intro t ht
  unfold clearTags at ht
  have h4 := List.mem_filter.mp ht
  have h3 := List.mem_filter.mp h4.1
  have h2 := List.mem_filter.mp h3.1
  have h1 := List.mem_filter.mp h2.1
  cases hk : t.kind <;> simp [hk] at h1 h2 h3 h4

/-- C8: a pass first clears all four tag kinds, so its output never
depends on tags left by previous passes, and rerunning it on an
unchanged buffer reproduces the identical tag set. -/
theorem c8_idempotent :
    ∀ (cat : Catalog) (lines : List (List Char)) (old old' : List Tag),
      runPass cat lines old = runPass cat lines old' ∧
      runPass cat lines (runPass cat lines old) = runPass cat lines old := by
  intro cat lines old old'
  unfold runPass
  rw [clearTags_eq_nil, clearTags_eq_nil, clearTags_eq_nil]
  exact ⟨rfl, rfl⟩

/-! ### Lemmas about the comment scan -/

theorem matchHere_singleton {c : Char} {s : List Char} :
    matchHere [c] s = true ↔ s.get? 0 = some c := by
  cases s with
  | nil => simp [matchHere]
  | cons a t => simp [matchHere]

theorem matchHere_singleton_drop {c : Char} {line : List Char} {j : Nat} :
    matchHere [c] (line.drop j) = true ↔ line.get? j = some c := by
  rw [matchHere_singleton, List.get?_drop, Nat.add_zero]

theorem commentScanFrom_succ_none {line : List Char} {fuel i : Nat}
    (h : findFrom ['#'] line i = none) : commentScanFrom line (fuel + 1) i = [] := by
  unfold commentScanFrom
  rw [h]

theorem commentScanFrom_succ_even {line : List Char} {fuel i j : Nat}
    (h1 : findFrom ['#'] line i = some j) (h2 : evenQuotesAt line j = true) :
    commentScanFrom line (fuel + 1) i = [(j, line.length)] := by
  conv_lhs => unfold commentScanFrom
  rw [h1]
  show (if evenQuotesAt line j then [(j, line.length)]
        else commentScanFrom line fuel (j + 1)) = [(j, line.length)]
  rw [if_pos h2]

theorem commentScanFrom_succ_odd {line : List Char} {fuel i j : Nat}
    (h1 : findFrom ['#'] line i = some j) (h2 : evenQuotesAt line j = false) :
    commentScanFrom line (fuel + 1) i = commentScanFrom line fuel (j + 1) := by
  conv_lhs => unfold commentScanFrom
  rw [h1]
  show (if evenQuotesAt line j then [(j, line.length)]
        else commentScanFrom line fuel (j + 1)) = commentScanFrom line fuel (j + 1)
  rw [if_neg (by simp [h2])]

theorem mem_commentScanFrom {line : List Char} :
    ∀ {fuel i s e : Nat}, (s, e) ∈ commentScanFrom line fuel i →
      i ≤ s ∧ e = line.length ∧ line.get? s = some '#' ∧ evenQuotesAt line s = true := by
  intro fuel
  induction fuel with
  | zero => intro i s e h; simp [commentScanFrom] at h
  | succ f ih =>
      intro i s e h
      cases h1 : findFrom ['#'] line i with
      | none => rw [commentScanFrom_succ_none h1] at h; simp at h
      | some j =>
          rcases findFrom_eq_some h1 with ⟨hij, hmj⟩
          cases h2 : evenQuotesAt line j with
          | true =>
              rw [commentScanFrom_succ_even h1 h2] at h
              simp at h
              rcases h with ⟨rfl, rfl⟩
              exact ⟨hij, rfl, matchHere_singleton_drop.mp hmj, h2⟩
          | false =>
              rw [commentScanFrom_succ_odd h1 h2] at h
              rcases ih h with ⟨h1', h2', h3', h4'⟩
              exact ⟨by omega, h2', h3', h4'⟩

theorem commentScanFrom_reach {line : List Char} {j : Nat}
    (hj : line.get? j = some '#') (hev : evenQuotesAt line j = true) :
    ∀ fuel i, i ≤ j → j < i + fuel →
      ∃ s, commentScanFrom line fuel i = [(s, line.length)] ∧ s ≤ j := by
  intro fuel
  induction fuel with
  | zero => intro i h1 h2; omega
  | succ f ih =>
      intro i h1 h2
      rcases findFrom_complete (List.cons_ne_nil _ _) h1
          (matchHere_singleton_drop.mpr hj) with ⟨j1, hf, hj1⟩
      have hij1 := (findFrom_eq_some hf).1
      cases h2' : evenQuotesAt line j1 with
      | true => exact ⟨j1, commentScanFrom_succ_even hf h2', hj1⟩
      | false =>
          have hne : j1 ≠ j := by
            intro he; rw [he] at h2'; rw [h2'] at hev; cases hev
          rw [commentScanFrom_succ_odd hf h2']
          exact ih (j1 + 1) (by omega) (by omega)

theorem commentScanFrom_shape (line : List Char) :
    ∀ fuel i, commentScanFrom line fuel i = [] ∨
      ∃ s, commentScanFrom line fuel i = [(s, line.length)] := by
  intro fuel
  induction fuel with
  | zero => intro i; exact Or.inl rfl
  | succ f ih =>
      intro i
      cases h1 : findFrom ['#'] line i with
      | none => exact Or.inl (commentScanFrom_succ_none h1)
      | some j =>
          cases h2 : evenQuotesAt line j with
          | true => exact Or.inr ⟨j, commentScanFrom_succ_even h1 h2⟩
          | false => rw [commentScanFrom_succ_odd h1 h2]; exact ih (j + 1)

theorem commentSpans_shape (line : List Char) :
    commentSpans line = [] ∨ ∃ s, commentSpans line = [(s, line.length)] :=
  commentScanFrom_shape line (line.length + 1) 0

/-! ### Lemmas about String-tag removal and the comment pass -/

theorem mem_cutSpan {t u : Tag} {lo hi : Nat} (h : t ∈ cutSpan lo hi u) :
    t.kind = u.kind ∧ t.row = u.row ∧ u.startCol ≤ t.startCol ∧ t.endCol ≤ u.endCol ∧
    (u.startCol < u.endCol → t.startCol < t.endCol) ∧
    (t.endCol ≤ lo ∨ hi ≤ t.startCol) := by
  unfold cutSpan at h
  rcases List.mem_append.mp h with h | h
  · by_cases hc : u.startCol < lo
    · rw [if_pos hc] at h
      simp only [List.mem_singleton] at h
      subst h
      exact ⟨rfl, rfl, Nat.le_refl _,
        show min u.endCol lo ≤ u.endCol by omega,
        fun hlt => show u.startCol < min u.endCol lo by omega,
        Or.inl (show min u.endCol lo ≤ lo by omega)⟩
    · rw [if_neg hc] at h
      simp at h
  · by_cases hc : hi < u.endCol
    · rw [if_pos hc] at h
      simp only [List.mem_singleton] at h
      subst h
      exact ⟨rfl, rfl, show u.startCol ≤ max u.startCol hi by omega, Nat.le_refl _,
        fun hlt => show max u.startCol hi < u.endCol by omega,
        Or.inr (show hi ≤ max u.startCol hi by omega)⟩
    · rw [if_neg hc] at h
      simp at h

theorem mem_removeStrIn_of_row_ne {t : Tag} {tags : List Tag} {row lo hi : Nat}
    (ht : t ∈ tags) (hr : t.row ≠ row) : t ∈ removeStrIn row lo hi tags := by
  unfold removeStrIn
  rw [List.mem_flatMap]
  refine ⟨t, ht, ?_⟩
  have hb : (t.row == row) = false := beq_eq_false_iff_ne.mpr hr
  simp [hb]

theorem of_mem_removeStrIn {t : Tag} {tags : List Tag} {row lo hi : Nat}
    (ht : t ∈ removeStrIn row lo hi tags) :
    ∃ u ∈ tags, t.kind = u.kind ∧ t.row = u.row ∧ u.startCol ≤ t.startCol ∧
      t.endCol ≤ u.endCol ∧ (u.startCol < u.endCol → t.startCol < t.endCol) := by
  unfold removeStrIn at ht
  rcases List.mem_flatMap.mp ht with ⟨u, hu, hm⟩
  by_cases hc : (u.kind == TagKind.str && u.row == row) = true
  · rw [if_pos hc] at hm
    rcases mem_cutSpan hm with ⟨h1, h2, h3, h4, h5, _⟩
    exact ⟨u, hu, h1, h2, h3, h4, h5⟩
  · rw [if_neg hc] at hm
    simp only [List.mem_singleton] at hm
    subst hm
    exact ⟨t, hu, rfl, rfl, Nat.le_refl _, Nat.le_refl _, fun h => h⟩

theorem of_mem_removeStrIn_not_str {t : Tag} {tags : List Tag} {row lo hi : Nat}
    (ht : t ∈ removeStrIn row lo hi tags) (hk : t.kind ≠ TagKind.str) : t ∈ tags := by
  unfold removeStrIn at ht
  rcases List.mem_flatMap.mp ht with ⟨u, hu, hm⟩
  by_cases hc : (u.kind == TagKind.str && u.row == row) = true
  · rw [if_pos hc] at hm
    rcases mem_cutSpan hm with ⟨h1, _, _, _, _, _⟩
    simp only [Bool.and_eq_true, beq_iff_eq] at hc
    exact absurd (h1.trans hc.1) hk
  · rw [if_neg hc] at hm
    simp only [List.mem_singleton] at hm
    subst hm
    exact hu

theorem str_mem_removeStrIn_cols {t : Tag} {tags : List Tag} {row lo hi : Nat}
    (ht : t ∈ removeStrIn row lo hi tags) (hk : t.kind = TagKind.str)
    (hr : t.row = row) : t.endCol ≤ lo ∨ hi ≤ t.startCol := by
  unfold removeStrIn at ht
  rcases List.mem_flatMap.mp ht with ⟨u, hu, hm⟩
  by_cases hc : (u.kind == TagKind.str && u.row == row) = true
  · rw [if_pos hc] at hm
    exact (mem_cutSpan hm).2.2.2.2.2
  · rw [if_neg hc] at hm
    simp only [List.mem_singleton] at hm
    subst hm
    exact absurd (by simp [hk, hr]) hc

theorem of_mem_removeStrIn_row_ne {t : Tag} {tags : List Tag} {row lo hi : Nat}
    (ht : t ∈ removeStrIn row lo hi tags) (hr : t.row ≠ row) : t ∈ tags := by
  unfold removeStrIn at ht
  rcases List.mem_flatMap.mp ht with ⟨u, hu, hm⟩
  by_cases hc : (u.kind == TagKind.str && u.row == row) = true
  · rw [if_pos hc] at hm
    rcases mem_cutSpan hm with ⟨_, h2, _⟩
    simp only [Bool.and_eq_true, beq_iff_eq] at hc
    exact absurd (h2.trans hc.2) hr
  · rw [if_neg hc] at hm
    simp only [List.mem_singleton] at hm
    subst hm
    exact hu

theorem applyComments_cons (row : Nat) (p : Nat × Nat) (rest : List (Nat × Nat))
    (tags : List Tag) :
    applyComments row (p :: rest) tags =
      applyComments row rest
        (removeStrIn row p.1 p.2 tags ++ [⟨row, p.1, p.2, TagKind.comment⟩]) := rfl

theorem applyComments_single (row : Nat) (p : Nat × Nat) (tags : List Tag) :
    applyComments row [p] tags =
      removeStrIn row p.1 p.2 tags ++ [⟨row, p.1, p.2, TagKind.comment⟩] := rfl

theorem comment_of_mem_applyComments {t : Tag} {row : Nat} :
    ∀ {spans : List (Nat × Nat)} {tags : List Tag}, t ∈ applyComments row spans tags →
      t.kind = TagKind.comment →
      t ∈ tags ∨ ∃ p ∈ spans, t = ⟨row, p.1, p.2, TagKind.comment⟩ := by
  intro spans
  induction spans with
  | nil => intro tags ht _; exact Or.inl ht
  | cons p rest ih =>
      intro tags ht hk
      rw [applyComments_cons] at ht
      rcases ih ht hk with h | ⟨q, hq, he⟩
      · rcases List.mem_append.mp h with h' | h'
        · exact Or.inl (of_mem_removeStrIn_not_str h' (by simp [hk]))
        · simp only [List.mem_singleton] at h'
          exact Or.inr ⟨p, List.mem_cons_self _ _, h'⟩
      · exact Or.inr ⟨q, List.mem_cons_of_mem _ hq, he⟩

theorem mem_applyComments_of_span {row : Nat} {p : Nat × Nat} :
    ∀ {spans : List (Nat × Nat)} {tags : List Tag}, p ∈ spans →
      (⟨row, p.1, p.2, TagKind.comment⟩ : Tag) ∈ applyComments row spans tags := by
  intro spans
  induction spans with
  | nil => intro tags hp; cases hp
  | cons q rest ih =>
      intro tags hp
      rw [applyComments_cons]
      rcases List.mem_cons.mp hp with rfl | hp'
      · exact mem_applyComments_of_ne
          (List.mem_append.mpr (Or.inr (List.mem_singleton.mpr rfl)))
          (fun h => TagKind.noConfusion h)
      · exact ih hp'

theorem str_of_mem_applyComments_row_ne {u : Tag} {row : Nat} :
    ∀ {spans : List (Nat × Nat)} {tags : List Tag}, u ∈ applyComments row spans tags →
      u.kind = TagKind.str → u.row ≠ row → u ∈ tags := by
  intro spans
  induction spans with
  | nil => intro tags hu _ _; exact hu
  | cons p rest ih =>
      intro tags hu hk hr
      rw [applyComments_cons] at hu
      rcases List.mem_append.mp (ih hu hk hr) with h | h
      · exact of_mem_removeStrIn_row_ne h hr
      · simp only [List.mem_singleton] at h
        subst h
        exact absurd rfl hr

theorem commentApplyAll_cons (row : Nat) (l : List Char) (rest : List (List Char))
    (tags : List Tag) :
    commentApplyAll row (l :: rest) tags =
      commentApplyAll (row + 1) rest (applyComments row (commentSpans l) tags) := rfl

theorem comment_of_mem_commentApplyAll {t : Tag} :
    ∀ {ls : List (List Char)} {row0 : Nat} {tags : List Tag},
      t ∈ commentApplyAll row0 ls tags → t.kind = TagKind.comment →
      t ∈ tags ∨ ∃ k, ∃ h : k < ls.length, t.row = row0 + k ∧
        (t.startCol, t.endCol) ∈ commentSpans (ls.get ⟨k, h⟩) := by
  intro ls
  induction ls with
  | nil => intro row0 tags ht _; exact Or.inl ht
  | cons l rest ih =>
      intro row0 tags ht hk
      rw [commentApplyAll_cons] at ht
      rcases ih ht hk with h | ⟨k, hkl, hrow, hsp⟩
      · rcases comment_of_mem_applyComments h hk with h' | ⟨p, hp, he⟩
        · exact Or.inl h'
        · refine Or.inr ⟨0, by simp, ?_, ?_⟩
          · rw [he]
            exact (Nat.add_zero row0).symm
          · rw [he]
            exact hp
      · refine Or.inr ⟨k + 1, by simpa using hkl, by omega, ?_⟩
        exact hsp

theorem mem_commentApplyAll_of_span {p : Nat × Nat} :
    ∀ (ls : List (List Char)) (row0 : Nat) (tags : List Tag) {k : Nat}
      (hk : k < ls.length), p ∈ commentSpans (ls.get ⟨k, hk⟩) →
      (⟨row0 + k, p.1, p.2, TagKind.comment⟩ : Tag) ∈ commentApplyAll row0 ls tags := by
  intro ls
  induction ls with
  | nil => intro row0 tags k hk; exact absurd hk (by simp)
  | cons l rest ih =>
      intro row0 tags k hk hp
      rw [commentApplyAll_cons]
      cases k with
      | zero =>
          refine mem_commentApplyAll_of_ne (fun h => TagKind.noConfusion h) ?_
          have h0 : (⟨row0, p.1, p.2, TagKind.comment⟩ : Tag) ∈
              applyComments row0 (commentSpans l) tags :=
            mem_applyComments_of_span hp
          simpa using h0
      | succ k' =>
          have hk' : k' < rest.length := by simpa using hk
          have harr : row0 + (k' + 1) = (row0 + 1) + k' := by omega
          rw [harr]
          exact ih (row0 + 1) _ hk' hp

theorem str_row_pres (r : Nat) (P : Tag → Prop) :
    ∀ {ls : List (List Char)} {row0 : Nat} {tags : List Tag}, r < row0 →
      (∀ t ∈ tags, t.kind = TagKind.str → t.row = r → P t) →
      ∀ t ∈ commentApplyAll row0 ls tags, t.kind = TagKind.str → t.row = r → P t := by
  intro ls
  induction ls with
  | nil => intro row0 tags _ hP t ht; exact hP t ht
  | cons l rest ih =>
      intro row0 tags hr hP t ht
      rw [commentApplyAll_cons] at ht
      refine ih (by omega) ?_ t ht
      intro u hu hku hru
      refine hP u ?_ hku hru
      exact str_of_mem_applyComments_row_ne hu hku (by omega)

theorem str_cut :
    ∀ (ls : List (List Char)) (row0 : Nat) (tags : List Tag) (k : Nat)
      (hk : k < ls.length) (s : Nat),
      commentSpans (ls.get ⟨k, hk⟩) = [(s, (ls.get ⟨k, hk⟩).length)] →
      ∀ t ∈ commentApplyAll row0 ls tags, t.kind = TagKind.str → t.row = row0 + k →
        t.endCol ≤ s ∨ (ls.get ⟨k, hk⟩).length ≤ t.startCol := by
  intro ls
  induction ls with
  | nil => intro row0 tags k hk; exact absurd hk (by simp)
  | cons l rest ih =>
      intro row0 tags k hk s hsp t ht hkt hrt
      rw [commentApplyAll_cons] at ht
      cases k with
      | zero =>
          refine str_row_pres row0
            (fun u => u.endCol ≤ s ∨ (l.length ≤ u.startCol)) (by omega)
            ?_ t ht hkt (by omega)
          intro u hu hku hru
          rw [show commentSpans l = [(s, l.length)] from hsp, applyComments_single] at hu
          rcases List.mem_append.mp hu with h | h
          · exact str_mem_removeStrIn_cols h hku hru
          · simp only [List.mem_singleton] at h
            subst h
            exact absurd hku (fun he => TagKind.noConfusion he)
      | succ k' =>
          have hk' : k' < rest.length := by simpa using hk
          exact ih (row0 + 1) _ k' hk' s hsp t ht hkt (by omega)

/-! ### Bounds of the produced tags -/

theorem getD_lines_eq_get {l : List (List Char)} {i : Nat} (h : i < l.length) :
    l.getD i [] = l.get ⟨i, h⟩ := by
  rw [List.getD_eq_get?, List.get?_eq_get h]
  rfl

theorem of_mem_spanTags {row : Nat} {k : TagKind} {spans : List (Nat × Nat)} {t : Tag}
    (h : t ∈ spanTags row k spans) :
    ∃ p ∈ spans, t = Tag.mk row p.1 p.2 k := by
  unfold spanTags at h
  rcases List.mem_map.mp h with ⟨p, hp, he⟩
  exact ⟨p, hp, he.symm⟩

theorem of_mem_taggedSpans {tok line : List Char} {p : Nat × Nat} (hne : tok ≠ [])
    (h : p ∈ taggedSpans tok line) : p.1 < p.2 ∧ p.2 ≤ line.length := by
  unfold taggedSpans at h
  rcases List.mem_map.mp h with ⟨j, hj, he⟩
  have hjv := (List.mem_filter.mp hj).1
  rcases mem_visitedCols hne hjv with ⟨_, hb⟩
  have hpos : 0 < tok.length := List.length_pos.mpr hne
  subst he
  exact ⟨show j < j + tok.length by omega, hb⟩

theorem tokenPass_cons (tok : List Char) (k : TagKind) (row : Nat) (l : List Char)
    (rest : List (List Char)) :
    tokenPass tok k row (l :: rest) =
      spanTags row k (taggedSpans tok l) ++ tokenPass tok k (row + 1) rest := rfl

theorem of_mem_tokenPass {tok : List Char} {k : TagKind} {t : Tag} (hne : tok ≠ []) :
    ∀ {ls : List (List Char)} {row0 : Nat}, t ∈ tokenPass tok k row0 ls →
      t.kind = k ∧ ∃ i, ∃ hi : i < ls.length, t.row = row0 + i ∧
        t.startCol < t.endCol ∧ t.endCol ≤ (ls.get ⟨i, hi⟩).length := by
  intro ls
  induction ls with
  | nil => intro row0 h; exact absurd h (by simp [tokenPass])
  | cons l rest ih =>
      intro row0 h
      rw [tokenPass_cons] at h
      rcases List.mem_append.mp h with h' | h'
      · rcases of_mem_spanTags h' with ⟨p, hp, he⟩
        rcases of_mem_taggedSpans hne hp with ⟨h1, h2⟩
        subst he
        exact ⟨rfl, 0, by simp, (Nat.add_zero row0).symm, h1, h2⟩
      · rcases ih h' with ⟨hk, i, hi, hrow, hcc, hcl⟩
        exact ⟨hk, i + 1, by simpa using hi, by omega, hcc, hcl⟩

theorem catalogPass_cons (tok : List Char) (toks : List (List Char)) (k : TagKind)
    (lines : List (List Char)) :
    catalogPass (tok :: toks) k lines =
      tokenPass tok k 0 lines ++ catalogPass toks k lines := rfl

theorem of_mem_catalogPass {toks : List (List Char)} {k : TagKind}
    {lines : List (List Char)} {t : Tag} (h : t ∈ catalogPass toks k lines) :
    ∃ tok ∈ toks, t ∈ tokenPass tok k 0 lines := by
  induction toks with
  | nil => exact absurd h (by simp [catalogPass])
  | cons tok rest ih =>
      rw [catalogPass_cons] at h
      rcases List.mem_append.mp h with h' | h'
      · exact ⟨tok, List.mem_cons_self _ _, h'⟩
      · rcases ih h' with ⟨u, hu, hm⟩
        exact ⟨u, List.mem_cons_of_mem _ hu, hm⟩

theorem quotePass_cons (q : Char) (row : Nat) (l : List Char) (rest : List (List Char)) :
    quotePass q row (l :: rest) =
      spanTags row TagKind.str (quoteSpans q l) ++ quotePass q (row + 1) rest := rfl

theorem of_mem_quotePass {q : Char} {t : Tag} :
    ∀ {ls : List (List Char)} {row0 : Nat}, t ∈ quotePass q row0 ls →
      t.kind = TagKind.str ∧ ∃ i, ∃ hi : i < ls.length, t.row = row0 + i ∧
        t.startCol < t.endCol ∧ t.endCol ≤ (ls.get ⟨i, hi⟩).length := by
  intro ls
  induction ls with
  | nil => intro row0 h; exact absurd h (by simp [quotePass])
  | cons l rest ih =>
      intro row0 h
      rw [quotePass_cons] at h
      rcases List.mem_append.mp h with h' | h'
      · rcases of_mem_spanTags h' with ⟨p, hp, he⟩
        have hp' : (p.1, p.2) ∈ quoteSpans q l := hp
        rcases mem_quoteScanFrom hp' with ⟨_, h1, h2⟩
        subst he
        exact ⟨rfl, 0, by simp, (Nat.add_zero row0).symm, h1, h2⟩
      · rcases ih h' with ⟨hk, i, hi, hrow, hcc, hcl⟩
        exact ⟨hk, i + 1, by simpa using hi, by omega, hcc, hcl⟩

theorem rowBound_to_withinBounds {lines : List (List Char)} {t : Tag} {i : Nat}
    (hi : i < lines.length) (hrow : t.row = i) (hcc : t.startCol < t.endCol)
    (hcl : t.endCol ≤ (lines.get ⟨i, hi⟩).length) : withinBounds lines t := by
  refine ⟨by omega, hcc, ?_⟩
  rw [hrow, getD_lines_eq_get hi]
  exact hcl

theorem of_mem_baseTags {cat : Catalog} {lines : List (List Char)} {t : Tag}
    (hcat : ∀ tok ∈ cat.keywords ++ cat.builtins, tok ≠ [])
    (ht : t ∈ baseTags cat lines) :
    t.kind ≠ TagKind.comment ∧ withinBounds lines t := by
  unfold baseTags at ht
  rcases List.mem_append.mp ht with h' | h
  rotate_left
  · rcases of_mem_quotePass h with ⟨hk, i, hi, hrow, hcc, hcl⟩
    exact ⟨by rw [hk]; exact fun he => TagKind.noConfusion he,
      rowBound_to_withinBounds hi (by omega) hcc hcl⟩
  rcases List.mem_append.mp h' with h'' | h
  rotate_left
  · rcases of_mem_quotePass h with ⟨hk, i, hi, hrow, hcc, hcl⟩
    exact ⟨by rw [hk]; exact fun he => TagKind.noConfusion he,
      rowBound_to_withinBounds hi (by omega) hcc hcl⟩
  rcases List.mem_append.mp h'' with h | h
  · rcases of_mem_catalogPass h with ⟨tok, htok, hm⟩
    have hne := hcat tok (List.mem_append.mpr (Or.inl htok))
    rcases of_mem_tokenPass hne hm with ⟨hk, i, hi, hrow, hcc, hcl⟩
    exact ⟨by rw [hk]; exact fun he => TagKind.noConfusion he,
      rowBound_to_withinBounds hi (by omega) hcc hcl⟩
  · rcases of_mem_catalogPass h with ⟨tok, htok, hm⟩
    have hne := hcat tok (List.mem_append.mpr (Or.inr htok))
    rcases of_mem_tokenPass hne hm with ⟨hk, i, hi, hrow, hcc, hcl⟩
    exact ⟨by rw [hk]; exact fun he => TagKind.noConfusion he,
      rowBound_to_withinBounds hi (by omega) hcc hcl⟩

theorem applyComments_nil (row : Nat) (tags : List Tag) :
    applyComments row [] tags = tags := rfl

theorem commentApplyAll_bounds {lines : List (List Char)} :
    ∀ (ls : List (List Char)) (row0 : Nat) (tags : List Tag),
      (∀ i, i < ls.length → ls.get? i = lines.get? (row0 + i)) →
      (∀ t ∈ tags, withinBounds lines t) →
      ∀ t ∈ commentApplyAll row0 ls tags, withinBounds lines t := by
  intro ls
  induction ls with
  | nil => intro row0 tags _ hT t ht; exact hT t ht
  | cons l rest ih =>
      intro row0 tags hcorr hT t ht
      rw [commentApplyAll_cons] at ht
      refine ih (row0 + 1) _ ?_ ?_ t ht
      · intro i hi
        have h1 : (l :: rest).get? (i + 1) = lines.get? (row0 + (i + 1)) :=
          hcorr (i + 1) (by simpa using hi)
        have harr : row0 + (i + 1) = (row0 + 1) + i := by omega
        rw [harr] at h1
        exact h1
      · intro u hu
        rcases commentSpans_shape l with hsh | ⟨s, hsh⟩
        · rw [hsh, applyComments_nil] at hu
          exact hT u hu
        · rw [hsh, applyComments_single] at hu
          rcases List.mem_append.mp hu with h | h
          · rcases of_mem_removeStrIn h with ⟨u0, hu0, hk, hr, hs, he, hnd⟩
            rcases hT u0 hu0 with ⟨hb1, hb2, hb3⟩
            refine ⟨by rw [hr]; exact hb1, hnd hb2, ?_⟩
            rw [hr]
            exact le_trans he hb3
          · simp only [List.mem_singleton] at h
            subst h
            have h0 : lines.get? row0 = some l := by
              have := (hcorr 0 (by simp)).symm
              simpa using this
            rcases List.get?_eq_some.mp h0 with ⟨hrow0, _⟩
            have hgd : lines.getD row0 [] = l := by
              rw [List.getD_eq_get?, h0]
              rfl
            have hmem : (s, l.length) ∈ commentSpans l := by
              rw [hsh]
              exact List.mem_singleton.mpr rfl
            rcases mem_commentScanFrom hmem with ⟨_, _, hget, _⟩
            rcases List.get?_eq_some.mp hget with ⟨hsl, _⟩
            exact ⟨hrow0, hsl, by rw [hgd]⟩

theorem highlight_bounds {cat : Catalog} {lines : List (List Char)}
    (hcat : ∀ tok ∈ cat.keywords ++ cat.builtins, tok ≠ []) :
    ∀ t ∈ highlight cat lines, withinBounds lines t := by
  intro t ht
  unfold highlight at ht
  refine commentApplyAll_bounds lines 0 (baseTags cat lines) ?_ ?_ t ht
  · intro i _
    rw [Nat.zero_add]
  · intro u hu
    exact (of_mem_baseTags hcat hu).2

theorem highlight_str_comment {cat : Catalog} {lines : List (List Char)}
    (hcat : ∀ tok ∈ cat.keywords ++ cat.builtins, tok ≠ []) :
    ∀ t1 ∈ highlight cat lines, ∀ t2 ∈ highlight cat lines,
      t1.kind = TagKind.str → t2.kind = TagKind.comment → t1.row = t2.row →
      t1.endCol ≤ t2.startCol := by
  intro t1 h1 t2 h2 hk1 hk2 hr
  have h1' := h1
  unfold highlight at h1 h2
  rcases comment_of_mem_commentApplyAll h2 hk2 with hbase | ⟨k, hk, hrow, hsp⟩
  · exact absurd hk2 (of_mem_baseTags hcat hbase).1
  · rcases commentSpans_shape (lines.get ⟨k, hk⟩) with hsh | ⟨s, hsh⟩
    · rw [hsh] at hsp
      cases hsp
    · rw [hsh] at hsp
      simp only [List.mem_singleton, Prod.mk.injEq] at hsp
      rcases hsp with ⟨hs1, hs2⟩
      have hc := str_cut lines 0 (baseTags cat lines) k hk s hsh t1 h1 hk1 (by omega)
      rcases hc with h | h
      · rw [hs1]
        exact h
      · exfalso
        rcases highlight_bounds hcat t1 h1' with ⟨_, hcc, hcl⟩
        have hgd : lines.getD t1.row [] = lines.get ⟨k, hk⟩ := by
          rw [show t1.row = k from by omega, getD_lines_eq_get hk]
        rw [hgd] at hcl
        omega

/-! ### Claim theorems: the comment pass -/

/-- C3: for every occurrence of `#` in the buffer: if the double-quote
and single-quote counts on its line strictly before its column are both
even, the span from the `#` through end-of-line carries a Comment tag
(starting at the first even hash of the line, at or before this one) and
no String tag survives inside that span; if either count is odd the
occurrence is skipped and no Comment tag starts at its column. -/
theorem c3_comment_parity :
    ∀ (cat : Catalog) (lines : List (List Char)) (row j : Nat) (line : List Char),
      (∀ tok ∈ cat.keywords ++ cat.builtins, tok ≠ []) →
      lines.get? row = some line → line.get? j = some '#' →
      (evenQuotesAt line j = true →
        (∃ t ∈ highlight cat lines, t.kind = TagKind.comment ∧ t.row = row ∧
          t.startCol ≤ j ∧ t.endCol = line.length) ∧
        (∀ t ∈ highlight cat lines, t.kind = TagKind.str → t.row = row →
          ¬(j ≤ t.startCol ∧ t.endCol ≤ line.length))) ∧
      (evenQuotesAt line j = false →
        ∀ t ∈ highlight cat lines, t.kind = TagKind.comment → t.row = row →
          t.startCol ≠ j) := by
  intro cat lines row j line hcat hrl hq
  rcases List.get?_eq_some.mp hrl with ⟨hrow, hget⟩
  rcases List.get?_eq_some.mp hq with ⟨hjl, _⟩
  constructor
  · intro hev
    rcases commentScanFrom_reach hq hev (line.length + 1) 0 (Nat.zero_le _)
        (by omega) with ⟨s, hsp, hs⟩
    have hspan : commentSpans line = [(s, line.length)] := hsp
    have hspan' : commentSpans (lines.get ⟨row, hrow⟩) =
        [(s, (lines.get ⟨row, hrow⟩).length)] := by
      rw [hget]
      exact hspan
    constructor
    · have hmem := mem_commentApplyAll_of_span lines 0 (baseTags cat lines)
        hrow (show ((s, line.length) : Nat × Nat) ∈ commentSpans (lines.get ⟨row, hrow⟩) by
          rw [hget]; exact hspan ▸ List.mem_singleton.mpr rfl)
      exact ⟨⟨0 + row, s, line.length, TagKind.comment⟩, hmem, rfl, Nat.zero_add row, hs, rfl⟩
    · intro t ht hkt hrt
      have hcut := str_cut lines 0 (baseTags cat lines) row hrow s hspan' t
        (by exact ht) hkt (by omega)
      rcases highlight_bounds hcat t ht with ⟨_, hcc, hcl⟩
      have hgd : lines.getD t.row [] = line := by
        rw [hrt, getD_lines_eq_get hrow, hget]
      rw [hgd] at hcl
      rcases hcut with h | h
      · rintro ⟨hj1, _⟩
        omega
      · rw [hget] at h
        omega
  · intro hodd t ht hkt hrt
    unfold highlight at ht
    rcases comment_of_mem_commentApplyAll ht hkt with hbase | ⟨k, hkl, hrow', hsp⟩
    · exact absurd hkt (of_mem_baseTags hcat hbase).1
    · have hk2 : k = row := by omega
      subst hk2
      have hgl : lines.get ⟨k, hkl⟩ = line := by
        have h1 := List.get?_eq_get hkl
        rw [hrl] at h1
        exact (Option.some.inj h1).symm
      rw [hgl] at hsp
      rcases mem_commentScanFrom hsp with ⟨_, _, _, hev'⟩
      intro he
      rw [he] at hev'
      rw [hev'] at hodd
      cases hodd

/-- Witness for C3: in `x"y" # z` the `#` at column 5 has two preceding
double quotes (even), and the String tag `(1,4)` is not inside the
comment span. -/
theorem c3_comment_parity_witness :
    ¬(5 ≤ (Tag.mk 0 1 4 TagKind.str).startCol ∧
      (Tag.mk 0 1 4 TagKind.str).endCol ≤ ("x\"y\" # z".toList : List Char).length) :=
  ((c3_comment_parity ⟨[], []⟩ ["x\"y\" # z".toList] 0 5 "x\"y\" # z".toList
      (by decide) (by decide) (by decide)).1 (by decide)).2
    ⟨0, 1, 4, TagKind.str⟩ (by decide) rfl rfl

/-- C4 as stated is false: on the buffer `x="for"` with keyword catalog
`for`, the Keyword span (3,6) lies strictly inside the String span (2,7)
— tags of different kinds overlap although no comment-over-string
override is involved (the buffer has no Comment tag at all). -/
theorem c4_counterexample :
    ((⟨0, 3, 6, TagKind.kw⟩ : Tag) ∈ highlight ⟨["for".toList], []⟩ ["x=\"for\"".toList]) ∧
    ((⟨0, 2, 7, TagKind.str⟩ : Tag) ∈ highlight ⟨["for".toList], []⟩ ["x=\"for\"".toList]) ∧
    ((highlight ⟨["for".toList], []⟩ ["x=\"for\"".toList]).all
      (fun t => !(t.kind == TagKind.comment)) = true) :=
  ⟨by decide, by decide, by decide⟩

/-- C4 amended: for catalogs of non-empty tokens, every tagged span lies
within buffer bounds, and String and Comment spans never overlap (every
String tag on a Comment tag's row ends at or before the Comment tag's
start); but spans of different kinds can overlap in general — a Keyword
or Builtin span may lie inside a String or Comment span, as the
counterexample shows. -/
theorem c4_amended :
    ∀ (cat : Catalog) (lines : List (List Char)),
      (∀ tok ∈ cat.keywords ++ cat.builtins, tok ≠ []) →
      (∀ t ∈ highlight cat lines, withinBounds lines t) ∧
      (∀ t1 ∈ highlight cat lines, ∀ t2 ∈ highlight cat lines,
        t1.kind = TagKind.str → t2.kind = TagKind.comment → t1.row = t2.row →
        t1.endCol ≤ t2.startCol) :=
  fun _ _ hcat => ⟨highlight_bounds hcat, highlight_str_comment hcat⟩

/-- Witness for C4's amended statement on `x="for" # y`: the String span
(2,7) ends before the Comment span starting at column 8. -/
theorem c4_amended_witness :
    (Tag.mk 0 2 7 TagKind.str).endCol ≤ (Tag.mk 0 8 11 TagKind.comment).startCol :=
  (c4_amended ⟨["for".toList], []⟩ ["x=\"for\" # y".toList] (by decide)).2
    ⟨0, 2, 7, TagKind.str⟩ (by decide) ⟨0, 8, 11, TagKind.comment⟩ (by decide)
    rfl rfl rfl

/-- C5 as stated is false in its second half: on `s = "a" # b` the
Comment span begins at the `#` (column 8), not at the space before it —
no Comment tag covers column 7. -/
theorem c5_counterexample :
    ((highlight ⟨[], []⟩ ["s = \"a\" # b".toList]).filter
        (fun t => t.kind == TagKind.comment) = [⟨0, 8, 11, TagKind.comment⟩]) ∧
    ((highlight ⟨[], []⟩ ["s = \"a\" # b".toList]).all
        (fun t => !(t.kind == TagKind.comment && decide (t.startCol ≤ 7) &&
          decide (7 < t.endCol))) = true) :=
  ⟨by decide, by decide⟩

/-- C5 amended: on `s = "a # b` (one double quote before the `#`, odd)
the `#` is not tagged Comment; on `s = "a" # b` (two double quotes,
even) the span `# b` — beginning at the `#` itself, column 8, through
end of line — is tagged Comment (the space before the `#` is not part of
the span). -/
theorem c5_amended :
    ((highlight ⟨[], []⟩ ["s = \"a # b".toList]).all
        (fun t => !(t.kind == TagKind.comment)) = true) ∧
    ((highlight ⟨[], []⟩ ["s = \"a\" # b".toList]).filter
        (fun t => t.kind == TagKind.comment) = [⟨0, 8, 11, TagKind.comment⟩]) :=
  ⟨by decide, by decide⟩

theorem getD_set_ne {l : List (List Char)} {i j : Nat} (a : List Char) (h : i ≠ j) :
    (l.set i a).getD j [] = l.getD j [] := by
  rw [List.getD_eq_get?, List.getD_eq_get?, List.get?_set_ne a l h]

theorem getD_set_self {l : List (List Char)} {i : Nat} (a : List Char) (h : i < l.length) :
    (l.set i a).getD i [] = a := by
  rw [List.getD_eq_get?, List.get?_set_eq_of_lt a h]
  rfl

/-- C6: on a Return key release, before any re-tagging, exactly
`4 * (L / 4)` space characters are inserted at the cursor — `L` being the
previous line's leading-whitespace run length — plus 4 more when the
previous line's last character is a colon; previous line `    if x:`
yields 8 inserted spaces and `  y = 1` yields 0. -/
theorem c6_auto_indent :
    (∀ (cat : Catalog) (st : EditorState) (old : List Tag) (row : Nat),
      st.cursor = (row, 0) → 1 ≤ row → row < st.lines.length →
      (highlightEvent cat (some returnKey) st old).1.lines =
        st.lines.set row
          (List.replicate
            (4 * (((st.lines.getD (row - 1) []).length -
                   lstripLen (st.lines.getD (row - 1) [])) / 4) +
             (if (st.lines.getD (row - 1) []).getLast? == some ':' then 4 else 0)) ' ' ++
           st.lines.getD row [])) ∧
    (applyAutoIndent ⟨["    if x:".toList, []], (1, 0)⟩).lines =
      ["    if x:".toList, List.replicate 8 ' '] ∧
    (applyAutoIndent ⟨["  y = 1".toList, []], (1, 0)⟩).lines =
      ["  y = 1".toList, []] := by
  refine ⟨?_, by decide, by decide⟩
  intro cat st old row hcur hrow hlt
  have h0 : (highlightEvent cat (some returnKey) st old).1 = applyAutoIndent st := by
    simp [highlightEvent]
  rw [h0]
  have h1 : st.cursor.1 = row := by rw [hcur]
  have h2 : st.cursor.2 = 0 := by rw [hcur]
  have hne : row ≠ row - 1 := by omega
  unfold applyAutoIndent insertChars
  simp only [h1, h2, beq_self_eq_true, if_true, List.take_zero, List.drop_zero,
    List.nil_append, List.length_replicate, Nat.zero_add]
  rw [getD_set_ne _ hne]
  by_cases hc : ((st.lines.getD (row - 1) []).getLast? == some ':') = true
  · rw [if_pos hc, if_pos hc, getD_set_self _ hlt,
      List.take_left' (List.length_replicate _ _),
      List.drop_left' (List.length_replicate _ _),
      List.set_set, ← List.replicate_add]
  · rw [if_neg hc, if_neg hc, Nat.add_zero]

/-- Witness for C6: previous line `    if x:` (4 leading spaces, ending
in a colon) yields 8 inserted spaces on the new line. -/
theorem c6_auto_indent_witness :
    (highlightEvent ⟨[], []⟩ (some returnKey)
        ⟨["    if x:".toList, []], (1, 0)⟩ []).1.lines =
      ["    if x:".toList, []].set 1
        (List.replicate
          (4 * ((("    if x:".toList : List Char).length -
                 lstripLen ("    if x:".toList)) / 4) +
           (if ("    if x:".toList : List Char).getLast? == some ':' then 4 else 0)) ' ' ++
         ([] : List Char)) := by
  have h := c6_auto_indent.1 ⟨[], []⟩ ⟨["    if x:".toList, []], (1, 0)⟩ [] 1
    rfl (by decide) (by decide)
  simpa using h

end VCIDE
